import Mathlib

/-- Square matrices of the mathematical library, indexed by `Fin n`; the reference
against which the products computed by `solve` are stated. -/
abbrev SqMatrix (n : Nat) (α : Type) : Type := Matrix (Fin n) (Fin n) α

/-! Verification development for `solver.hpp`.

A shallow embedding of the service functions and of the `Solver` methods of
`src/src/solver.hpp`, followed by theorems about them.

Conventions of the embedding:

* a C++ `int` is an `Int`; the only place where the 32-bit width can be felt is the
  running `mask = mask << 1`, which is modelled with two's complement wrap-around
  (`shl1`);
* a C++ condition `if (e)` on an integer expression `e` is `e ≠ 0`, and a comparison
  used as an integer (`x != 0` as the operand of `&`) is `b2i`, which is `1` or `0`;
* the C++ grammar gives `!=` a higher precedence than `&`, so the source text
  `mask & x != 0` is the expression `mask & (x != 0)`; the embedding follows the
  grammar;
* a `for (int i = 0; i < N; i++)` loop is a left fold of the loop body over
  `List.range N.toNat`, the loop-carried variables being the accumulator;
* `complexd` is an arbitrary scalar type `α` with addition, zero and conjugation
  (`star`); the statements that need a concrete scalar use the Gaussian integers or the
  rationals;
* the class `Matrix` and the class declaration of `Solver` are not part of
  `solver.hpp`; the operations the solver calls are modelled from the specification.
-/

namespace Prac

/-! ## Machine integers -/

/-- The value of a C++ comparison when it is used as an integer operand. -/
def b2i (b : Bool) : Int := if b then 1 else 0

/-- The statement `mask = mask << 1` on a 32-bit two's complement `int`. -/
def shl1 (mask : Int) : Int := Int.bmod (mask * 2) 4294967296

/-- The conversion of an `int` to `size_t` (64 bits), as performed when an `int` is
compared with the result of `vector::size()`. -/
def toSizeT (x : Int) : Nat := (x % 18446744073709551616).toNat

/-! ## Service functions -/

/-- The body of the loop of `unit_num` (lines 59-64); the loop-carried variables are
`(mask, out)`.  The test is `mask & i != 0`, that is `mask & (i != 0)`, on the loop
counter `i`. -/
def unit_num_body (st : Int × Int) (i : Nat) : Int × Int :=
  let mask := st.1
  let out := st.2
  let out := if Int.land mask (b2i (decide ((i : Int) ≠ 0))) ≠ 0 then out + 1 else out
  (shl1 mask, out)

/-- The function `unit_num` (lines 56-66).  The parameter `state` is not read by the
source. -/
def unit_num (state : Int) (N : Int) : Int :=
  ((List.range N.toNat).foldl unit_num_body (1, 0)).2

/-- The value of `int pow_N = pow(2,N)` (line 78) for `N ≤ 30`, the range in which `2^N`
is representable in a 32-bit `int`; for a negative `N` the real number `2^N` lies
strictly between 0 and 1 and is truncated to 0.  For `N ≥ 31` the conversion of the
`double` to `int` has no defined result in the source: the value given here carries no
information about the code there, and the statements about the values that
`collect_base_states` appends are made for `N ≤ 30` only. -/
def pow_N (N : Int) : Int := if N < 0 then 0 else 2 ^ N.toNat

/-- The function `collect_base_states` (lines 68-85); the new contents of the
reference parameter `base_states` are returned.  The variable `full_energy_state`
(lines 70-76) is computed by the source but never read, so it is left out. -/
def collect_base_states (E_lvl : Int) (N : Int) (base_states : List Int) : List Int :=
  let cur_base_states : List Int :=
    ((List.range (pow_N N).toNat).map (fun i : Nat => (i : Int))).filter
      (fun i => decide (unit_num i N = E_lvl))
  base_states ++ cur_base_states

/-- The loop-carried variables of `simple_transition`. -/
structure TransVars where
  mask : Int
  prev : Int
  found : Bool
  out : Int
  deriving DecidableEq, Repr

/-- The body of the loop of `simple_transition` (lines 95-123) for the state pair
`state_1`, `state_2` with `state_sum = state_1 ^ state_2`, at loop counter `i`. -/
def simple_transition_body (state_1 state_2 state_sum : Int) (v : TransVars) (i : Nat) :
    TransVars :=
  let v : TransVars :=
    if Int.land v.mask (b2i (decide (state_sum ≠ 0))) ≠ 0 then
      if !v.found then
        if v.prev = 0 then
          let v : TransVars :=
            if Int.land v.mask (b2i (decide (state_1 ≠ 0))) ≠ 0 then { v with prev := 1 } else v
          let v : TransVars :=
            if Int.land v.mask (b2i (decide (state_2 ≠ 0))) ≠ 0 then { v with prev := 2 } else v
          v
        else
          let v : TransVars :=
            if v.prev = 1 ∧ Int.land v.mask (b2i (decide (state_2 ≠ 0))) ≠ 0 then
              { v with prev := 0, found := true, out := (i : Int) - 1 }
            else v
          let v : TransVars :=
            if v.prev = 2 ∧ Int.land v.mask (b2i (decide (state_1 ≠ 0))) ≠ 0 then
              { v with prev := 0, found := true, out := (i : Int) - 1 }
            else v
          v
      else
        { v with out := -1 }
    else
      { v with prev := 0 }
  { v with mask := shl1 v.mask }

/-- The function `simple_transition` (lines 87-126). -/
def simple_transition (state_1 state_2 : Int) (N : Int) : Int :=
  let state_sum := Int.xor state_1 state_2
  ((List.range N.toNat).foldl (simple_transition_body state_1 state_2 state_sum)
    { mask := 1, prev := 0, found := false, out := -1 }).out

/-- The relation of the specification between two states and a bond `b`: the two
states differ by one nearest-neighbour hop across the bond, that is `state_1 ^ state_2`
has exactly the bits `b` and `b + 1` set and each state holds exactly one of the two. -/
def single_hop (state_1 state_2 : Int) (b : Nat) : Bool :=
  decide (Int.xor state_1 state_2 = 2 ^ b + 2 ^ (b + 1)) &&
    (state_1.testBit b != state_1.testBit (b + 1)) &&
    (state_2.testBit b != state_2.testBit (b + 1))

/-- The read `v[i]` of a `vector` at an `int` index; `none` stands for a read outside
the vector, which has no defined result. -/
def vec_at {β : Type} (v : List β) (i : Int) : Option β :=
  if i < 0 then none else v[i.toNat]?

/-- The body of the loop of the diagonal branch of `hamiltonian_element`
(lines 135-137); the loop-carried variables are `(mask, out)`.  The test is
`mask & states[row] != 0`, that is `mask & (states[row] != 0)`. -/
def hamiltonian_element_body {α : Type} [Add α] (row : Int) (w : List α) (states : List Int)
    (st : Option (Int × α)) (i : Nat) : Option (Int × α) :=
  st.bind fun p =>
    (vec_at states row).bind fun s =>
      if Int.land p.1 (b2i (decide (s ≠ 0))) ≠ 0 then
        (vec_at w (i : Int)).map fun wi => (shl1 p.1, p.2 + wi)
      else
        some (shl1 p.1, p.2)

/-- The function `hamiltonian_element` (lines 128-149); `none` when the source reads a
vector outside its bounds. -/
def hamiltonian_element {α : Type} [Zero α] [Add α] (row col : Int) (N : Int)
    (a w : List α) (states : List Int) : Option α :=
  if row = col then
    ((List.range N.toNat).foldl (hamiltonian_element_body row w states)
      (some (1, 0))).map Prod.snd
  else
    (vec_at states row).bind fun s1 =>
      (vec_at states col).bind fun s2 =>
        let pos := simple_transition s1 s2 N
        if pos ≠ -1 then vec_at a pos else some 0

/-! ## The matrix collaborator -/

/-- Modelled from the spec: the `Matrix` class, whose source is not part of
`solver.hpp`.  A dense matrix is its two dimensions and its entries; the entries outside
the dimensions carry no information. -/
structure Matrix (α : Type) where
  rows : Nat
  cols : Nat
  elem : Nat → Nat → α

/-- Modelled from the spec: `Matrix::init(rows, cols)`, a fresh matrix of the given
dimensions. -/
def Matrix.init {α : Type} [Zero α] (rows cols : Nat) : Matrix α :=
  { rows := rows, cols := cols, elem := fun _ _ => 0 }

/-- Modelled from the spec: `Matrix::set(i, j, val)`, which stores `val` at row `i`,
column `j` and leaves every other entry as it is. -/
def Matrix.set {α : Type} (m : Matrix α) (i j : Nat) (val : α) : Matrix α :=
  { m with elem := fun p q => if p = i ∧ q = j then val else m.elem p q }

/-- Modelled from the spec: `Matrix::is_square()`. -/
def Matrix.is_square {α : Type} (m : Matrix α) : Bool := decide (m.rows = m.cols)

/-- Modelled from the spec: `operator~`, the conjugate transpose. -/
def Matrix.conj_transpose {α : Type} [Star α] (m : Matrix α) : Matrix α :=
  { rows := m.cols, cols := m.rows, elem := fun i j => star (m.elem j i) }

/-- Modelled from the spec: `operator*`, the matrix product; `none` when the inner
dimensions differ and the collaborator rejects the product. -/
def Matrix.mul {α : Type} [AddCommMonoid α] [Mul α] (x y : Matrix α) : Option (Matrix α) :=
  if x.cols = y.rows then
    some { rows := x.rows, cols := y.cols,
           elem := fun i j => Finset.sum (Finset.range x.cols) fun l => x.elem i l * y.elem l j }
  else none

/-- Modelled from the spec: the line written by `Matrix::print_diagonal_abs`, the
magnitudes of the diagonal entries in index order; `abs` is the magnitude of a scalar. -/
def Matrix.diagonal_abs {α ρ : Type} (abs : α → ρ) (m : Matrix α) : List ρ :=
  (List.range m.rows).map fun i => abs (m.elem i i)

/-- The entries of a matrix inside an `n × n` window, as a matrix of the mathematical
library. -/
def Matrix.toSq {α : Type} (n : Nat) (m : Matrix α) : SqMatrix n α :=
  fun i j => m.elem i.val j.val

/-! ## The solver -/

/-- The class `Solver_exception` (lines 13-42): the message it was built with. -/
structure Solver_exception where
  errstr : String
  deriving DecidableEq, Repr

/-- The data members of the class `Solver` that `solver.hpp` uses: `H`, `R0`, `dT` and
`step_num`.  The type `τ` is the type of the time step. -/
structure Solver (α τ : Type) where
  H : Matrix α
  R0 : Matrix α
  dT : τ
  step_num : Int

/-- How a method of `Solver` ends: it returns (`done`) with the new value of the object,
it throws (`thrown`) and leaves the object with the value it had at the throw, or it
reads a vector outside its bounds (`undefined`). -/
inductive Outcome (σ : Type) where
  | done (s : σ)
  | thrown (e : Solver_exception) (s : σ)
  | undefined

/-- Lines 173-183 of `init_hamiltonian`: the basis list `base_states`. -/
def init_hamiltonian_base_states (N s E_min E_max : Int) : List Int :=
  let s := min s E_max
  (List.range (s + 1).toNat).foldl
    (fun (base_states : List Int) (_i : Nat) =>
      let low := max 0 (E_min - s)
      let high := max 0 (E_max - s)
      (List.range (high - low + 1).toNat).foldl
        (fun (base_states : List Int) (k : Nat) =>
          collect_base_states (low + (k : Int)) N base_states)
        base_states)
    []

/-- The body of the inner loop of `init_hamiltonian` (lines 189-192) at row `i`, column
`j`. -/
def init_hamiltonian_body {α : Type} [Zero α] [Add α] [Star α] (N : Int) (a w : List α)
    (base_states : List Int) (i : Nat) (H : Option (Matrix α)) (j : Nat) :
    Option (Matrix α) :=
  H.bind fun H =>
    (hamiltonian_element (i : Int) (j : Int) N a w base_states).map fun val =>
      let H := H.set i j val
      if i ≠ j then H.set j i (star val) else H

/-- Lines 185-193 of `init_hamiltonian`: the matrix built over the basis list
`base_states`. -/
def init_hamiltonian_fill {α : Type} [Zero α] [Add α] [Star α] (N : Int) (a w : List α)
    (base_states : List Int) : Option (Matrix α) :=
  (List.range base_states.length).foldl
    (fun (H : Option (Matrix α)) (i : Nat) =>
      (List.range' i (base_states.length - i)).foldl
        (init_hamiltonian_body N a w base_states i) H)
    (some (Matrix.init base_states.length base_states.length))

/-- The method `Solver::init_hamiltonian(N, s, E_min, E_max, a, w)` (lines 169-194).
In the test of line 171 the `int` operands are converted to `size_t`. -/
def Solver.init_hamiltonian {α τ : Type} [Zero α] [Add α] [Star α] (self : Solver α τ)
    (N s E_min E_max : Int) (a w : List α) : Outcome (Solver α τ) :=
  if a.length ≠ toSizeT (N - 1) ∨ w.length ≠ toSizeT N then
    Outcome.thrown ⟨"incorrect parameters in hamiltonian initialization"⟩ self
  else
    match init_hamiltonian_fill N a w (init_hamiltonian_base_states N s E_min E_max) with
    | some H => Outcome.done { self with H := H }
    | none => Outcome.undefined

/-- The loop-carried state of `solve`: the matrix `Rt` and the lines written so far
after the header. -/
structure SolveVars (α ρ : Type) where
  Rt : Matrix α
  snapshots : List (List ρ)

/-- The body of the loop of `solve` (lines 258-263).  `Except.error` is the state at
which a product was rejected; the exception leaves the loop, so the later iterations
do nothing. -/
def solve_body {α ρ : Type} [AddCommMonoid α] [Mul α] (abs : α → ρ) (U_c U : Matrix α)
    (v : Except (SolveVars α ρ) (SolveVars α ρ)) (_i : Nat) :
    Except (SolveVars α ρ) (SolveVars α ρ) :=
  match v with
  | Except.error v => Except.error v
  | Except.ok v =>
    match Matrix.mul U_c v.Rt with
    | none => Except.error v
    | some R1 =>
      match Matrix.mul R1 U with
      | none => Except.error { v with Rt := R1 }
      | some R2 => Except.ok { Rt := R2, snapshots := v.snapshots ++ [R2.diagonal_abs abs] }

/-- Lines 252-264 of `solve`, run for `n` iterations of the loop.  The matrix
exponential `exp` of the collaborator is a parameter. -/
def solve_steps {α τ ρ : Type} [AddCommMonoid α] [Mul α] [Star α]
    (exp : Matrix α → τ → Matrix α) (abs : α → ρ) (self : Solver α τ) (n : Nat) :
    Except (SolveVars α ρ) (SolveVars α ρ) :=
  let U := exp self.H self.dT
  let U_c := U.conj_transpose
  (List.range n).foldl (solve_body abs U_c U) (Except.ok { Rt := self.R0, snapshots := [] })

/-- The method `Solver::solve` (lines 241-267): the final value of `Rt` and the lines
written after the header.  The header and the choice between the file and the standard
output (lines 243-250, 260-263, 265-266) do not change these lines and are left out. -/
def Solver.solve {α τ ρ : Type} [AddCommMonoid α] [Mul α] [Star α]
    (exp : Matrix α → τ → Matrix α) (abs : α → ρ) (self : Solver α τ) :
    Except (SolveVars α ρ) (SolveVars α ρ) :=
  solve_steps exp abs self self.step_num.toNat

/-- The first loop of `combination_num` (lines 49-50), over unbounded integers: the
product of the `i` from `k + 1` to `n`. -/
def combination_num_product (k n : Int) : Int :=
  (List.range (n - k).toNat).foldl (fun (out : Int) (t : Nat) => out * (k + 1 + (t : Int))) 1

/-- The second loop of `combination_num` (lines 51-52) run for `m` iterations from the
value `out`: the truncating divisions by `1, 2, ..., m` in turn. -/
def combination_num_quotient (out : Int) (m : Nat) : Int :=
  (List.range m).foldl (fun (out : Int) (t : Nat) => Int.tdiv out (1 + (t : Int))) out

/-- The function `combination_num` (lines 46-54), over unbounded integers. -/
def combination_num (k n : Int) : Int :=
  combination_num_quotient (combination_num_product k n) (n - k).toNat

/-- The method `Solver::init_hamiltonian(const Matrix&)` (lines 162-167).  The matrix is
stored before it is tested, so the object holds it also when the method throws. -/
def Solver.init_hamiltonian_matrix {α τ : Type} (self : Solver α τ) (matrix_H : Matrix α) :
    Outcome (Solver α τ) :=
  let self : Solver α τ := { self with H := matrix_H }
  if !self.H.is_square then
    Outcome.thrown ⟨"incorrect matrix dimensions in hamiltonian"⟩ self
  else
    Outcome.done self

/-- The method `Solver::init_density_matrix(const Matrix&)` (lines 205-210).  The matrix
is stored before it is tested, so the object holds it also when the method throws. -/
def Solver.init_density_matrix {α τ : Type} (self : Solver α τ) (matrix_R0 : Matrix α) :
    Outcome (Solver α τ) :=
  let self : Solver α τ := { self with R0 := matrix_R0 }
  if !self.R0.is_square then
    Outcome.thrown ⟨"incorrect matrix dimensions in initital density matrix"⟩ self
  else
    Outcome.done self

/-! ## The quantities the specification speaks of -/

/-- The excitation level of the specification: the number of bit positions
`0 .. N-1` that are set in `state`. -/
def excitation_level (state : Int) (N : Int) : Int :=
  (((List.range N.toNat).filter fun i => state.testBit i).length : Int)

/-- The diagonal entry of the specification: the sum of `w[site]` over the sites
`0 .. N-1` whose bit is set in `state`. -/
def onsite_energy {α : Type} [Zero α] [Add α] (N : Int) (w : List α) (state : Int) : α :=
  (((List.range N.toNat).filter fun site => state.testBit site).map
    fun site => w.getD site 0).sum

/-- The basis list of the specification: with `s' = min s E_max`, every level from
`max 0 (E_min - s')` to `max 0 (E_max - s')` is taken once, in increasing order, and the
states `collect_base_states` appends for it are concatenated. -/
def window_base_states (N s E_min E_max : Int) : List Int :=
  let s := min s E_max
  let low := max 0 (E_min - s)
  let high := max 0 (E_max - s)
  (List.range (high - low + 1).toNat).foldl
    (fun (base_states : List Int) (k : Nat) =>
      collect_base_states (low + (k : Int)) N base_states)
    []

/-! ## Sample data, used to instantiate the statements -/

/-- A solver over the Gaussian integers whose matrices are still empty, with the default
time step 0.1 and the default step count 1. -/
def sample_solver : Solver GaussianInt ℚ :=
  { H := Matrix.init 0 0, R0 := Matrix.init 0 0, dT := 1 / 10, step_num := 1 }

/-- A rational `2 × 2` system with two steps: `H` exchanges the two basis states and `R0`
is the projector on the first one. -/
def sample_system : Solver ℚ ℚ :=
  { H := { rows := 2, cols := 2, elem := fun i j => if i = j then 0 else 1 },
    R0 := { rows := 2, cols := 2, elem := fun i j => if i = 0 ∧ j = 0 then 1 else 0 },
    dT := 1 / 10, step_num := 2 }

/-- A stand-in for the matrix exponential on the sample system: the first-order
propagator `1 + dT * H`. -/
def sample_exp (H : Matrix ℚ) (dT : ℚ) : Matrix ℚ :=
  { H with elem := fun i j => (if i = j then 1 else 0) + dT * H.elem i j }

/-! ## Auxiliary facts -/

theorem foldl_range_invariant {β : Type} (f : β → Nat → β) (P : Nat → β → Prop) (b : β)
    (h0 : P 0 b) (hstep : ∀ n x, P n x → P (n + 1) (f x n)) (n : Nat) :
    P n ((List.range n).foldl f b) := by
  induction n with
  | zero => simpa using h0
  | succ k ih =>
    rw [List.range_succ, List.foldl_append]
    exact hstep k _ ih

theorem land_zero_right (m : Int) : Int.land m 0 = 0 := by
  cases m with
  | ofNat n => show ((n &&& 0 : Nat) : Int) = 0; simp
  | negSucc n => show ((Nat.ldiff 0 n : Nat) : Int) = 0; simp [Nat.ldiff]

theorem land_one_of_even (m : Int) (h : m % 2 = 0) : Int.land m 1 = 0 := by
  cases m with
  | ofNat n =>
    show ((n &&& 1 : Nat) : Int) = 0
    have h2 : n % 2 = 0 := by
      have : ((n : Int)) % 2 = 0 := h
      omega
    rw [Nat.and_one_is_mod, h2]; rfl
  | negSucc n =>
    show ((Nat.ldiff 1 n : Nat) : Int) = 0
    have h2 : n % 2 = 1 := by
      have : (Int.negSucc n) % 2 = 0 := h
      rw [Int.negSucc_eq] at this
      omega
    have h3 : Nat.ldiff 1 n = 0 := by
      apply Nat.eq_of_testBit_eq
      intro i
      rw [Nat.testBit_ldiff]
      cases i with
      | zero => simp [Nat.testBit_zero, h2]
      | succ k => simp [Nat.testBit_succ]
    rw [h3]; rfl

theorem land_b2i_of_even (m : Int) (b : Bool) (h : m % 2 = 0) : Int.land m (b2i b) = 0 := by
  cases b
  · exact land_zero_right m
  · exact land_one_of_even m h

theorem land_b2i_false (m : Int) : Int.land m (b2i false) = 0 := land_zero_right m

theorem shl1_even (m : Int) : shl1 m % 2 = 0 := by
  unfold shl1 Int.bmod
  simp only []
  split <;> omega

/-- The loop of `unit_num` never increments `out`. -/
theorem unit_num_body_inv (st : Int × Int) (i : Nat) (ho : st.2 = 0)
    (h : i = 0 ∨ st.1 % 2 = 0) :
    (unit_num_body st i).2 = 0 ∧ (unit_num_body st i).1 % 2 = 0 := by
  refine ⟨?_, shl1_even _⟩
  simp only [unit_num_body]
  rcases h with h | h
  · subst h
    simp [land_b2i_false, ho, b2i, land_zero_right]
  · rw [land_b2i_of_even _ _ h]
    simp [ho]

/-- The function `unit_num` returns 0 whatever its arguments are. -/
theorem unit_num_eq_zero (state N : Int) : unit_num state N = 0 := by
  have h := foldl_range_invariant unit_num_body
    (fun n st => st.2 = 0 ∧ (n = 0 ∨ st.1 % 2 = 0)) (1, 0) ⟨rfl, Or.inl rfl⟩
    (fun n x hx => by
      have := unit_num_body_inv x n hx.1 hx.2
      exact ⟨this.1, Or.inr this.2⟩) N.toNat
  exact h.1

theorem simple_transition_body_inv (s1 s2 ss : Int) (v : TransVars) (i : Nat)
    (hf : v.found = false) (ho : v.out = -1) (h : v.prev = 0 ∨ v.mask % 2 = 0) :
    (simple_transition_body s1 s2 ss v i).found = false ∧
    (simple_transition_body s1 s2 ss v i).out = -1 ∧
    (simple_transition_body s1 s2 ss v i).mask % 2 = 0 := by
  refine ⟨?_, ?_, shl1_even _⟩
  · simp only [simple_transition_body]
    by_cases hc : Int.land v.mask (b2i (decide (ss ≠ 0))) ≠ 0
    · have hp : v.prev = 0 := by
        rcases h with h | h
        · exact h
        · exact absurd (land_b2i_of_even _ _ h) hc
      rw [if_pos hc]
      simp only [hf, hp]
      split_ifs <;> simp_all
    · rw [if_neg hc]
      exact hf
  · simp only [simple_transition_body]
    by_cases hc : Int.land v.mask (b2i (decide (ss ≠ 0))) ≠ 0
    · have hp : v.prev = 0 := by
        rcases h with h | h
        · exact h
        · exact absurd (land_b2i_of_even _ _ h) hc
      rw [if_pos hc]
      simp only [hf, hp]
      split_ifs <;> simp_all
    · rw [if_neg hc]
      exact ho

/-- The function `simple_transition` returns -1 whatever its arguments are. -/
theorem simple_transition_eq_neg_one (state_1 state_2 N : Int) :
    simple_transition state_1 state_2 N = -1 := by
  have h := foldl_range_invariant
    (simple_transition_body state_1 state_2 (Int.xor state_1 state_2))
    (fun _ v => v.found = false ∧ v.out = -1 ∧ (v.prev = 0 ∨ v.mask % 2 = 0))
    { mask := 1, prev := 0, found := false, out := -1 } ⟨rfl, rfl, Or.inl rfl⟩
    (fun n x hx => by
      have := simple_transition_body_inv state_1 state_2 (Int.xor state_1 state_2) x n
        hx.1 hx.2.1 hx.2.2
      exact ⟨this.1, this.2.1, Or.inr this.2.2⟩) N.toNat
  exact h.2.1

theorem foldl_range_invariant_lt {β : Type} (f : β → Nat → β) (P : Nat → β → Prop)
    (b : β) (N : Nat) (h0 : P 0 b) (hstep : ∀ k x, k < N → P k x → P (k + 1) (f x k)) :
    P N ((List.range N).foldl f b) := by
  have key : ∀ m, m ≤ N → P m ((List.range m).foldl f b) := by
    intro m
    induction m with
    | zero => intro _; simpa using h0
    | succ k ih =>
      intro hk
      rw [List.range_succ, List.foldl_append]
      exact hstep k _ (by omega) (ih (by omega))
  exact key N (le_refl N)

theorem foldl_range'_invariant {β : Type} (f : β → Nat → β) (P : Nat → β → Prop)
    (b : β) (s len : Nat) (h0 : P 0 b)
    (hstep : ∀ k x, k < len → P k x → P (k + 1) (f x (s + k))) :
    P len ((List.range' s len).foldl f b) := by
  have key : ∀ m, m ≤ len → P m ((List.range' s m).foldl f b) := by
    intro m
    induction m with
    | zero => intro _; simpa using h0
    | succ k ih =>
      intro hk
      rw [List.range'_concat, List.foldl_append]
      simpa using hstep k _ (by omega) (ih (by omega))
  exact key len (le_refl len)

theorem vec_at_natCast {β : Type} (v : List β) (i : Nat) : vec_at v (i : Int) = v[i]? := by
  simp [vec_at]

theorem vec_at_of_lt {β : Type} (v : List β) (i : Nat) (h : i < v.length) :
    vec_at v (i : Int) = some v[i] := by
  rw [vec_at_natCast]; exact List.getElem?_eq_getElem h

/-- An entry of `hamiltonian_element` off the diagonal. -/
theorem hamiltonian_element_off_diagonal {α : Type} [Zero α] [Add α] (row col N : Int)
    (a w : List α) (states : List Int) (s1 s2 : Int) (h : row ≠ col)
    (h1 : vec_at states row = some s1) (h2 : vec_at states col = some s2) :
    hamiltonian_element row col N a w states =
      if simple_transition s1 s2 N ≠ -1 then vec_at a (simple_transition s1 s2 N)
      else some 0 := by
  simp [hamiltonian_element, h, h1, h2]

theorem hamiltonian_element_body_inv {α : Type} [Zero α] [Add α] (row : Int) (w : List α)
    (states : List Int) (s : Int) (w0 : α) (h1 : vec_at states row = some s)
    (hw : s ≠ 0 → vec_at w 0 = some w0) (k : Nat) (st : Option (Int × α))
    (h : (k = 0 ∧ st = some (1, 0)) ∨
      (0 < k ∧ ∃ m, m % 2 = 0 ∧ st = some (m, if s ≠ 0 then 0 + w0 else 0))) :
    ∃ m, m % 2 = 0 ∧
      hamiltonian_element_body row w states st k = some (m, if s ≠ 0 then 0 + w0 else 0) := by
  rcases h with ⟨hk, hst⟩ | ⟨_, m, hm, hst⟩
  · subst hk; subst hst
    by_cases hs : s = 0
    · refine ⟨shl1 1, shl1_even 1, ?_⟩
      simp [hamiltonian_element_body, h1, hs, b2i, land_zero_right]
    · refine ⟨shl1 1, shl1_even 1, ?_⟩
      have h11 : Int.land 1 1 = 1 := by decide
      have hw0 := hw hs
      simp only [Nat.cast_zero] at *
      simp [hamiltonian_element_body, h1, hs, b2i, h11, hw0]
  · subst hst
    refine ⟨shl1 m, shl1_even m, ?_⟩
    simp [hamiltonian_element_body, h1, land_b2i_of_even m _ hm]

/-- An entry of `hamiltonian_element` on the diagonal: `w[0]` added to zero when
`0 < N` and the state is not 0, and zero otherwise. -/
theorem hamiltonian_element_diagonal {α : Type} [Zero α] [Add α] (row N : Int)
    (a w : List α) (states : List Int) (s : Int) (w0 : α)
    (h1 : vec_at states row = some s) (hw : 0 < N → s ≠ 0 → vec_at w 0 = some w0) :
    hamiltonian_element row row N a w states =
      some (if 0 < N ∧ s ≠ 0 then 0 + w0 else 0) := by
  simp only [hamiltonian_element, if_true]
  by_cases hN : 0 < N
  · have hpos : 0 < N.toNat := by omega
    have h := foldl_range_invariant_lt (hamiltonian_element_body row w states)
      (fun k st => (k = 0 ∧ st = some (1, 0)) ∨
        (0 < k ∧ ∃ m, m % 2 = 0 ∧ st = some (m, if s ≠ 0 then 0 + w0 else 0)))
      (some (1, 0)) N.toNat (Or.inl ⟨rfl, rfl⟩)
      (fun k x _ hx => by
        obtain ⟨m, hm, e⟩ := hamiltonian_element_body_inv row w states s w0 h1 (hw hN) k x hx
        exact Or.inr ⟨Nat.succ_pos k, m, hm, e⟩)
    rcases h with ⟨h0, _⟩ | ⟨_, m, _, e⟩
    · omega
    · rw [e]; simp [hN]
  · have h0 : N.toNat = 0 := by omega
    rw [h0]; simp [hN]


theorem init_hamiltonian_body_spec {α : Type} [Zero α] [Add α] [Star α] (N : Int)
    (a w : List α) (base_states : List Int) (i j : Nat) (H : Matrix α) (val : α)
    (hv : hamiltonian_element (i : Int) (j : Int) N a w base_states = some val) :
    ∃ H', init_hamiltonian_body N a w base_states i (some H) j = some H' ∧
      H'.rows = H.rows ∧ H'.cols = H.cols ∧ H'.elem i j = val ∧
      (i ≠ j → H'.elem j i = star val) ∧
      ∀ p q, ¬(p = i ∧ q = j) → ¬(p = j ∧ q = i) → H'.elem p q = H.elem p q := by
  by_cases hij : i = j
  · subst hij
    refine ⟨H.set i i val, ?_, rfl, rfl, ?_, ?_, ?_⟩
    · simp [init_hamiltonian_body, hv]
    · simp [Matrix.set]
    · intro h; exact absurd rfl h
    · intro p q h1 _
      simp [Matrix.set, h1]
  · refine ⟨(H.set i j val).set j i (star val), ?_, rfl, rfl, ?_, ?_, ?_⟩
    · simp [init_hamiltonian_body, hv, hij]
    · have : ¬(i = j ∧ j = i) := fun h => hij h.1
      simp [Matrix.set, this]
    · intro _; simp [Matrix.set]
    · intro p q h1 h2
      simp [Matrix.set, h1, h2]

/-- The matrix built by lines 185-193: every entry on or above the diagonal is the value
of `hamiltonian_element`, and every entry below it is the conjugate of its mirror
entry. -/
theorem init_hamiltonian_fill_spec {α : Type} [Zero α] [Add α] [Star α] (N : Int)
    (a w : List α) (base_states : List Int)
    (htot : ∀ r c : Nat, r ≤ c → c < base_states.length →
      ∃ v, hamiltonian_element (r : Int) (c : Int) N a w base_states = some v) :
    ∃ H, init_hamiltonian_fill N a w base_states = some H ∧
      H.rows = base_states.length ∧ H.cols = base_states.length ∧
      ∀ r c : Nat, r ≤ c → c < base_states.length →
        some (H.elem r c) = hamiltonian_element (r : Int) (c : Int) N a w base_states ∧
        (r < c → H.elem c r = star (H.elem r c)) := by
  unfold init_hamiltonian_fill
  have h := foldl_range_invariant_lt
    (fun (H : Option (Matrix α)) (i : Nat) =>
      (List.range' i (base_states.length - i)).foldl
        (init_hamiltonian_body N a w base_states i) H)
    (fun i acc => ∃ H, acc = some H ∧ H.rows = base_states.length ∧
      H.cols = base_states.length ∧
      ∀ r c : Nat, r ≤ c → r < i → c < base_states.length →
        some (H.elem r c) = hamiltonian_element (r : Int) (c : Int) N a w base_states ∧
        (r < c → H.elem c r = star (H.elem r c)))
    (some (Matrix.init base_states.length base_states.length)) base_states.length
    ⟨_, rfl, rfl, rfl, fun r c _ hr _ => absurd hr (Nat.not_lt_zero r)⟩
    (fun i acc hi hacc => by
      have hin := foldl_range'_invariant (init_hamiltonian_body N a w base_states i)
        (fun k acc => ∃ H, acc = some H ∧ H.rows = base_states.length ∧
          H.cols = base_states.length ∧
          ∀ r c : Nat, r ≤ c → (r < i ∨ (r = i ∧ c < i + k)) →
            c < base_states.length →
            some (H.elem r c) = hamiltonian_element (r : Int) (c : Int) N a w base_states ∧
            (r < c → H.elem c r = star (H.elem r c)))
        acc i (base_states.length - i)
        (by
          obtain ⟨H, e, hr, hc, hg⟩ := hacc
          refine ⟨H, e, hr, hc, fun r c hrc hd hcn => ?_⟩
          rcases hd with hd | ⟨_, hd⟩
          · exact hg r c hrc hd hcn
          · omega)
        (fun k x hk hx => by
          obtain ⟨H, e, hr, hc, hg⟩ := hx
          obtain ⟨val, hv⟩ := htot i (i + k) (Nat.le_add_right i k) (by omega)
          obtain ⟨H', e', hr', hc', hij, hji, hrest⟩ :=
            init_hamiltonian_body_spec N a w base_states i (i + k) H val hv
          refine ⟨H', by rw [e, e'], by rw [hr', hr], by rw [hc', hc], fun r c hrc hd hcn => ?_⟩
          by_cases hnew : r = i ∧ c = i + k
          · obtain ⟨h1, h2⟩ := hnew
            subst h1; subst h2
            refine ⟨by rw [hij, hv], fun hlt => ?_⟩
            rw [hji (by omega), hij]
          · have hold : r < i ∨ (r = i ∧ c < i + k) := by omega
            obtain ⟨g1, g2⟩ := hg r c hrc hold hcn
            have k1 : H'.elem r c = H.elem r c := hrest r c hnew (by omega)
            refine ⟨by rw [k1]; exact g1, fun hlt => ?_⟩
            have k2 : H'.elem c r = H.elem c r := hrest c r (by omega) (by omega)
            rw [k1, k2]; exact g2 hlt)
      obtain ⟨H, e, hr, hc, hg⟩ := hin
      refine ⟨H, e, hr, hc, fun r c hrc hri hcn => hg r c hrc ?_ hcn⟩
      omega)
  obtain ⟨H, e, hr, hc, hg⟩ := h
  exact ⟨H, e, hr, hc, fun r c hrc hcn => hg r c hrc (by omega) hcn⟩

/-- When `w` has an entry 0 whenever `N` is positive, `hamiltonian_element` reads no
vector outside its bounds on the indices of the basis list. -/
theorem hamiltonian_element_total {α : Type} [Zero α] [Add α] (N : Int) (a w : List α)
    (base_states : List Int) (hw : 0 < N → w ≠ []) (r c : Nat)
    (hr : r < base_states.length) (hc : c < base_states.length) :
    ∃ v, hamiltonian_element (r : Int) (c : Int) N a w base_states = some v := by
  by_cases hrc : r = c
  · subst hrc
    cases w with
    | nil =>
      have hN : ¬ 0 < N := fun h => hw h rfl
      refine ⟨_, hamiltonian_element_diagonal (r : Int) N a [] base_states _ 0
        (vec_at_of_lt base_states r hr) (fun h => absurd h hN)⟩
    | cons w0 ws =>
      refine ⟨_, hamiltonian_element_diagonal (r : Int) N a (w0 :: ws) base_states _ w0
        (vec_at_of_lt base_states r hr) (fun _ _ => by simp [vec_at])⟩
  · have hne : (r : Int) ≠ (c : Int) := by exact_mod_cast hrc
    rw [hamiltonian_element_off_diagonal (r : Int) (c : Int) N a w base_states _ _ hne
      (vec_at_of_lt base_states r hr) (vec_at_of_lt base_states c hc)]
    simp [simple_transition_eq_neg_one]


theorem Matrix.conj_transpose_toSq {α : Type} [Star α] (n : Nat) (m : Matrix α) :
    (m.conj_transpose).toSq n = (m.toSq n).conjTranspose := by
  ext i j
  rfl

theorem Matrix.mul_toSq {α : Type} [Semiring α] (n : Nat) (x y : Matrix α)
    (hx : x.rows = n ∧ x.cols = n) (hy : y.rows = n ∧ y.cols = n) :
    ∃ z, Matrix.mul x y = some z ∧ (z.rows = n ∧ z.cols = n) ∧
      z.toSq n = x.toSq n * y.toSq n := by
  refine ⟨_, if_pos (by rw [hx.2, hy.1]), ⟨hx.1, hy.2⟩, ?_⟩
  ext i j
  simp only [Matrix.toSq, Matrix.mul_apply, hx.2]
  exact Finset.sum_range (fun l => x.elem i.val l * y.elem l j.val)

theorem Matrix.diagonal_abs_eq_ofFn {α ρ : Type} (abs : α → ρ) (n : Nat) (m : Matrix α)
    (h : m.rows = n) :
    m.diagonal_abs abs = List.ofFn (fun i : Fin n => abs (m.toSq n i i)) := by
  subst h
  apply List.ext_get
  · simp [Matrix.diagonal_abs]
  · intro k h1 h2
    simp [Matrix.diagonal_abs, Matrix.toSq]


/-- The state of the loop of `solve` after `k` iterations, when the propagator and `R0`
are `n × n`: no product is rejected, `Rt` is `U_c ^ k * R0 * U ^ k`, and `k` lines have
been written, the line of index `m` being the diagonal magnitudes of
`U_c ^ (m + 1) * R0 * U ^ (m + 1)`. -/
theorem solve_steps_spec {α τ ρ : Type} [Semiring α] [Star α]
    (exp : Matrix α → τ → Matrix α) (abs : α → ρ) (self : Solver α τ) (n : Nat)
    (hU : (exp self.H self.dT).rows = n ∧ (exp self.H self.dT).cols = n)
    (hR : self.R0.rows = n ∧ self.R0.cols = n) (k : Nat) :
    ∃ v, solve_steps exp abs self k = Except.ok v ∧ (v.Rt.rows = n ∧ v.Rt.cols = n) ∧
      v.Rt.toSq n = ((exp self.H self.dT).toSq n).conjTranspose ^ k * self.R0.toSq n *
        ((exp self.H self.dT).toSq n) ^ k ∧
      v.snapshots.length = k ∧
      ∀ m, m < k → v.snapshots[m]? = some (List.ofFn fun i : Fin n =>
        abs ((((exp self.H self.dT).toSq n).conjTranspose ^ (m + 1) * self.R0.toSq n *
          ((exp self.H self.dT).toSq n) ^ (m + 1)) i i)) := by
  unfold solve_steps
  refine foldl_range_invariant_lt
    (solve_body abs (exp self.H self.dT).conj_transpose (exp self.H self.dT))
    (fun k acc => ∃ v, acc = Except.ok v ∧ (v.Rt.rows = n ∧ v.Rt.cols = n) ∧
      v.Rt.toSq n = ((exp self.H self.dT).toSq n).conjTranspose ^ k * self.R0.toSq n *
        ((exp self.H self.dT).toSq n) ^ k ∧
      v.snapshots.length = k ∧
      ∀ m, m < k → v.snapshots[m]? = some (List.ofFn fun i : Fin n =>
        abs ((((exp self.H self.dT).toSq n).conjTranspose ^ (m + 1) * self.R0.toSq n *
          ((exp self.H self.dT).toSq n) ^ (m + 1)) i i)))
    (Except.ok { Rt := self.R0, snapshots := [] }) k
    ⟨_, rfl, hR, by simp, rfl, fun m hm => absurd hm (Nat.not_lt_zero m)⟩
    (fun k acc _ hacc => ?_)
  obtain ⟨v, e, hd, hRt, hlen, hsn⟩ := hacc
  have hUc : (exp self.H self.dT).conj_transpose.rows = n ∧
      (exp self.H self.dT).conj_transpose.cols = n := ⟨hU.2, hU.1⟩
  obtain ⟨R1, e1, hd1, hR1⟩ := Matrix.mul_toSq n (exp self.H self.dT).conj_transpose v.Rt hUc hd
  obtain ⟨R2, e2, hd2, hR2⟩ := Matrix.mul_toSq n R1 (exp self.H self.dT) hd1 hU
  have hnew : R2.toSq n = ((exp self.H self.dT).toSq n).conjTranspose ^ (k + 1) *
      self.R0.toSq n * ((exp self.H self.dT).toSq n) ^ (k + 1) := by
    rw [hR2, hR1, hRt, Matrix.conj_transpose_toSq, pow_succ', pow_succ]
    simp only [mul_assoc]
  refine ⟨{ Rt := R2, snapshots := v.snapshots ++ [R2.diagonal_abs abs] }, ?_, hd2, hnew,
    by simp [hlen], fun m hm => ?_⟩
  · subst e
    simp only [solve_body, e1, e2]
  · by_cases hmk : m < k
    · rw [List.getElem?_append_left (by omega)]
      exact hsn m hmk
    · have hmk2 : m = k := by omega
      subst hmk2
      rw [List.getElem?_append_right (by omega), hlen, Nat.sub_self]
      simp only [List.getElem?_cons_zero]
      rw [Matrix.diagonal_abs_eq_ofFn abs n R2 hd2.1, hnew]


/-- What `collect_base_states` appends: every `i < pow_N N` for the level 0, nothing for
any other level. -/
theorem collect_base_states_eq (E_lvl N : Int) (base_states : List Int) :
    collect_base_states E_lvl N base_states =
      base_states ++
        if E_lvl = 0 then (List.range (pow_N N).toNat).map (fun i : Nat => (i : Int)) else [] := by
  unfold collect_base_states
  simp only [unit_num_eq_zero]
  by_cases h : E_lvl = 0
  · subst h
    simp
  · have h' : ¬ (0 : Int) = E_lvl := fun e => h e.symm
    simp [h, h']

theorem collect_base_states_append (E_lvl N : Int) (base_states : List Int) :
    collect_base_states E_lvl N base_states =
      base_states ++ collect_base_states E_lvl N [] := by
  simp [collect_base_states]

theorem window_fold_append (N low : Int) (n : Nat) (base_states : List Int) :
    (List.range n).foldl
        (fun (bs : List Int) (k : Nat) => collect_base_states (low + (k : Int)) N bs)
        base_states =
      base_states ++ (List.range n).foldl
        (fun (bs : List Int) (k : Nat) => collect_base_states (low + (k : Int)) N bs) [] := by
  induction n with
  | zero => simp
  | succ m ih =>
    rw [List.range_succ, List.foldl_append, List.foldl_append, ih]
    simp only [List.foldl_cons, List.foldl_nil]
    rw [collect_base_states_append, collect_base_states_append _ _ (List.foldl _ _ _),
      List.append_assoc]

/-- The basis list of `init_hamiltonian` is the window of the specification repeated
`min s E_max + 1` times (no time at all when that number is not positive). -/
theorem init_hamiltonian_base_states_eq (N s E_min E_max : Int) :
    init_hamiltonian_base_states N s E_min E_max =
      (List.replicate (min s E_max + 1).toNat (window_base_states N s E_min E_max)).flatten := by
  unfold init_hamiltonian_base_states window_base_states
  simp only []
  generalize (min s E_max + 1).toNat = n
  induction n with
  | zero => simp
  | succ m ih =>
    rw [List.range_succ, List.foldl_append, ih]
    simp only [List.foldl_cons, List.foldl_nil]
    rw [window_fold_append, List.replicate_succ']
    simp

/-! ## The basis enumerator and the coupling detector -/

/-- C1 (failing input): for `N = 4` and excitation level 2 `collect_base_states`
appends nothing to the empty list, whereas the states with two set bits are
3, 5, 6, 9, 10, 12. -/
theorem C1_collect_base_states_four_two :
    collect_base_states 2 4 [] = [] ∧ collect_base_states 2 4 [] ≠ [3, 5, 6, 9, 10, 12] := by
  decide

/-- C2 (failing input): for `N = 3` the states `0b001` and `0b010` differ by one hop
across bond 0, and `simple_transition` returns -1 instead of 0. -/
theorem C2_simple_transition_hop_bond_zero :
    single_hop 1 2 0 = true ∧ simple_transition 1 2 3 = -1 ∧ simple_transition 1 2 3 ≠ 0 := by
  decide

/-- C3: when two states do not differ by exactly one nearest-neighbour hop across a bond
`b` with `b + 1 < N`, `simple_transition` returns -1. -/
theorem C3_simple_transition_no_hop (state_1 state_2 N : Int)
    (h : ∀ b : Nat, (b : Int) + 1 < N → single_hop state_1 state_2 b = false) :
    simple_transition state_1 state_2 N = -1 :=
  simple_transition_eq_neg_one state_1 state_2 N

/-- C3 at the states `0b001` and `0b100` for `N = 3` (a hop over two sites). -/
theorem C3_simple_transition_no_hop_witness :
    (∀ b : Nat, (b : Int) + 1 < 3 → single_hop 1 4 b = false) ∧
      simple_transition 1 4 3 = -1 :=
  have h : ∀ b : Nat, (b : Int) + 1 < 3 → single_hop 1 4 b = false := by
    intro b hb
    have hb2 : b < 2 := by omega
    interval_cases b <;> decide
  ⟨h, C3_simple_transition_no_hop 1 4 3 h⟩

/-- C4: `simple_transition` applied to two identical states returns -1, for every
state and every `N`. -/
theorem C4_simple_transition_same_state (state N : Int) :
    simple_transition state state N = -1 :=
  simple_transition_eq_neg_one state state N

/-! ## The Hamiltonian assembler -/

theorem toSizeT_of_nonneg (x : Int) (h0 : 0 ≤ x) (h1 : x < 2 ^ 31) : toSizeT x = x.toNat := by
  unfold toSizeT
  omega

/-- When the test of line 171 passes and `w` is not empty for a positive `N`,
`init_hamiltonian` returns, and the matrix it stores is square over the basis list, holds
the value of `hamiltonian_element` at every entry on or above the diagonal and the
conjugate of the mirror entry below it. -/
theorem init_hamiltonian_done {α τ : Type} [Zero α] [Add α] [Star α] (self : Solver α τ)
    (N s E_min E_max : Int) (a w : List α)
    (ha : a.length = toSizeT (N - 1)) (hw : w.length = toSizeT N) (hne : 0 < N → w ≠ []) :
    ∃ H, self.init_hamiltonian N s E_min E_max a w = Outcome.done { self with H := H } ∧
      init_hamiltonian_fill N a w (init_hamiltonian_base_states N s E_min E_max) = some H ∧
      H.rows = (init_hamiltonian_base_states N s E_min E_max).length ∧
      H.cols = (init_hamiltonian_base_states N s E_min E_max).length ∧
      ∀ r c : Nat, r ≤ c → c < (init_hamiltonian_base_states N s E_min E_max).length →
        some (H.elem r c) = hamiltonian_element (r : Int) (c : Int) N a w
          (init_hamiltonian_base_states N s E_min E_max) ∧
        (r < c → H.elem c r = star (H.elem r c)) := by
  obtain ⟨H, e, hr, hc, hg⟩ := init_hamiltonian_fill_spec N a w
    (init_hamiltonian_base_states N s E_min E_max)
    (fun r c hrc hcn => hamiltonian_element_total N a w _ hne r c (by omega) hcn)
  refine ⟨H, ?_, e, hr, hc, hg⟩
  unfold Solver.init_hamiltonian
  rw [if_neg (by simp [ha, hw]), e]

/-- What a normal return of `init_hamiltonian` tells: the test of line 171 passed and the
stored matrix is the one built by lines 185-193. -/
theorem init_hamiltonian_done_inv {α τ : Type} [Zero α] [Add α] [Star α]
    (self self' : Solver α τ) (N s E_min E_max : Int) (a w : List α)
    (h : self.init_hamiltonian N s E_min E_max a w = Outcome.done self') :
    a.length = toSizeT (N - 1) ∧ w.length = toSizeT N ∧
      init_hamiltonian_fill N a w (init_hamiltonian_base_states N s E_min E_max)
        = some self'.H := by
  unfold Solver.init_hamiltonian at h
  by_cases hc : a.length ≠ toSizeT (N - 1) ∨ w.length ≠ toSizeT N
  · rw [if_pos hc] at h
    cases h
  · rw [if_neg hc] at h
    have hc' : a.length = toSizeT (N - 1) ∧ w.length = toSizeT N := by
      constructor
      · by_contra hx; exact hc (Or.inl hx)
      · by_contra hx; exact hc (Or.inr hx)
    refine ⟨hc'.1, hc'.2, ?_⟩
    cases hf : init_hamiltonian_fill N a w (init_hamiltonian_base_states N s E_min E_max) with
    | none => rw [hf] at h; cases h
    | some H =>
      rw [hf] at h
      cases h
      rfl

/-- C5 (failing input): for `N = 2`, the basis list `[0b10]` and `w = [1, 5]` the
diagonal entry computed by `hamiltonian_element` is `w[0] = 1`, whereas the only site set
in the state is site 1 and the sum of the specification is `w[1] = 5`. -/
theorem C5_hamiltonian_element_diagonal_site_one :
    hamiltonian_element (α := GaussianInt) 0 0 2 [⟨3, 0⟩] [⟨1, 0⟩, ⟨5, 0⟩] [2]
        = some ⟨1, 0⟩ ∧
      onsite_energy (α := GaussianInt) 2 [⟨1, 0⟩, ⟨5, 0⟩] 2 = ⟨5, 0⟩ := by
  decide

/-- C6 (counterexample): for `N = 1`, `s = E_min = E_max = 0`, no hop amplitude and the
on-site energy `w = [i]`, the matrix built by `init_hamiltonian` has the entry `i` at
row 1, column 1, which is not its own conjugate. -/
theorem C6_hermitian_fails_on_diagonal :
    ∃ self' : Solver GaussianInt ℚ,
      Solver.init_hamiltonian sample_solver 1 0 0 0 [] [⟨0, 1⟩] = Outcome.done self' ∧
      self'.H.elem 1 1 ≠ star (self'.H.elem 1 1) := by
  obtain ⟨H, e, _, _, _, hg⟩ := init_hamiltonian_done
    sample_solver 1 0 0 0 [] [⟨0, 1⟩] (by decide) (by decide) (by simp)
  refine ⟨_, e, ?_⟩
  have hb : init_hamiltonian_base_states 1 0 0 0 = [0, 1] := by decide
  have h11 := (hg 1 1 (le_refl 1) (by rw [hb]; decide)).1
  rw [hb] at h11
  have hv : hamiltonian_element (α := GaussianInt) ((1 : Nat) : Int) ((1 : Nat) : Int) 1 []
      [⟨0, 1⟩] [0, 1] = some ⟨0, 1⟩ := by decide
  rw [hv] at h11
  have h11' : H.elem 1 1 = ⟨0, 1⟩ := Option.some.inj h11
  show H.elem 1 1 ≠ star (H.elem 1 1)
  rw [h11']
  decide

/-- C6 (amended): for `len(a) = N - 1` and `len(w) = N`, with arbitrary complex `a` and
`w`, `init_hamiltonian` returns and the matrix `H` it stores is square over the basis
list and satisfies `H[j][i] = conj(H[i][j])` for all indices `i ≠ j`. -/
theorem C6_hermitian_off_diagonal {α τ : Type} [Zero α] [Add α] [InvolutiveStar α]
    (self : Solver α τ) (N s E_min E_max : Int) (a w : List α) (hN : N < 2 ^ 31)
    (ha : (a.length : Int) = N - 1) (hw : (w.length : Int) = N) :
    ∃ self', self.init_hamiltonian N s E_min E_max a w = Outcome.done self' ∧
      self'.H.rows = (init_hamiltonian_base_states N s E_min E_max).length ∧
      self'.H.cols = (init_hamiltonian_base_states N s E_min E_max).length ∧
      ∀ i j : Nat, i < (init_hamiltonian_base_states N s E_min E_max).length →
        j < (init_hamiltonian_base_states N s E_min E_max).length → i ≠ j →
        self'.H.elem j i = star (self'.H.elem i j) := by
  have hN1 : 0 ≤ N - 1 := by omega
  obtain ⟨H, e, _, hr, hc, hg⟩ := init_hamiltonian_done self N s E_min E_max a w
    (by rw [toSizeT_of_nonneg _ hN1 (by omega)]; omega)
    (by rw [toSizeT_of_nonneg _ (by omega) hN]; omega)
    (fun _ hnil => by rw [hnil] at hw; simp at hw; omega)
  refine ⟨_, e, hr, hc, fun i j hi hj hij => ?_⟩
  show H.elem j i = star (H.elem i j)
  rcases Nat.lt_or_gt_of_ne hij with hlt | hgt
  · exact (hg i j (Nat.le_of_lt hlt) hj).2 hlt
  · rw [(hg j i (Nat.le_of_lt hgt) hi).2 hgt, star_star]

/-- C6 (amended) at `N = 2`, `s = E_min = E_max = 0`, `a = [i]`, `w = [1, 2 + i]`. -/
theorem C6_hermitian_off_diagonal_witness :
    ∃ self' : Solver GaussianInt ℚ,
      Solver.init_hamiltonian sample_solver 2 0 0 0 [⟨0, 1⟩] [⟨1, 0⟩, ⟨2, 1⟩]
        = Outcome.done self' ∧
      self'.H.rows = (init_hamiltonian_base_states 2 0 0 0).length ∧
      self'.H.cols = (init_hamiltonian_base_states 2 0 0 0).length ∧
      ∀ i j : Nat, i < (init_hamiltonian_base_states 2 0 0 0).length →
        j < (init_hamiltonian_base_states 2 0 0 0).length → i ≠ j →
        self'.H.elem j i = star (self'.H.elem i j) :=
  C6_hermitian_off_diagonal
    sample_solver
    2 0 0 0 [⟨0, 1⟩] [⟨1, 0⟩, ⟨2, 1⟩] (by norm_num) (by decide) (by decide)

/-- C7: after `init_hamiltonian` has returned, for basis indices `i < j` the entry
`H[i][j]` is `a[b]` when `simple_transition(states[i], states[j], N)` returns a bond
`b ≠ -1` and is 0 when it returns -1, and `H[j][i]` is the conjugate of `H[i][j]`. -/
theorem C7_init_hamiltonian_off_diagonal {α τ : Type} [Zero α] [Add α] [Star α]
    (self self' : Solver α τ) (N s E_min E_max : Int) (a w : List α) (hN : N < 2 ^ 31)
    (h : self.init_hamiltonian N s E_min E_max a w = Outcome.done self')
    (i j : Nat) (hij : i < j)
    (hj : j < (init_hamiltonian_base_states N s E_min E_max).length) (s1 s2 : Int)
    (h1 : (init_hamiltonian_base_states N s E_min E_max)[i]? = some s1)
    (h2 : (init_hamiltonian_base_states N s E_min E_max)[j]? = some s2) :
    (simple_transition s1 s2 N ≠ -1 →
        vec_at a (simple_transition s1 s2 N) = some (self'.H.elem i j)) ∧
      (simple_transition s1 s2 N = -1 → self'.H.elem i j = 0) ∧
      self'.H.elem j i = star (self'.H.elem i j) := by
  obtain ⟨ha, hw, hfill⟩ := init_hamiltonian_done_inv self self' N s E_min E_max a w h
  have hne : 0 < N → w ≠ [] := by
    intro hpos hnil
    rw [toSizeT_of_nonneg N (by omega) hN, hnil] at hw
    simp at hw
    omega
  obtain ⟨H, _, e, _, _, hg⟩ := init_hamiltonian_done self N s E_min E_max a w ha hw hne
  have hH : self'.H = H := by
    rw [hfill] at e
    exact Option.some.inj e
  rw [hH]
  obtain ⟨g1, g2⟩ := hg i j (Nat.le_of_lt hij) hj
  have hne' : (i : Int) ≠ (j : Int) := by
    have : i ≠ j := Nat.ne_of_lt hij
    exact_mod_cast this
  rw [hamiltonian_element_off_diagonal (i : Int) (j : Int) N a w _ s1 s2 hne'
    (by rw [vec_at_natCast]; exact h1) (by rw [vec_at_natCast]; exact h2)] at g1
  refine ⟨fun hp => ?_, fun hp => ?_, g2 hij⟩
  · rw [if_pos hp] at g1
    exact g1.symm
  · rw [if_neg (not_not.mpr hp)] at g1
    exact Option.some.inj g1

/-- C7 at `N = 2`, `s = E_min = E_max = 0`, `a = [i]`, `w = [1, 2]`, for the basis
indices 1 and 2 (the states `0b01` and `0b10`). -/
theorem C7_init_hamiltonian_off_diagonal_witness :
    ∃ self' : Solver GaussianInt ℚ,
      Solver.init_hamiltonian sample_solver 2 0 0 0 [⟨0, 1⟩] [⟨1, 0⟩, ⟨2, 0⟩]
        = Outcome.done self' ∧
      (simple_transition 1 2 2 ≠ -1 →
        vec_at [(⟨0, 1⟩ : GaussianInt)] (simple_transition 1 2 2) = some (self'.H.elem 1 2)) ∧
      (simple_transition 1 2 2 = -1 → self'.H.elem 1 2 = 0) ∧
      self'.H.elem 2 1 = star (self'.H.elem 1 2) := by
  obtain ⟨H, e, _⟩ := init_hamiltonian_done
    sample_solver 2 0 0 0 [⟨0, 1⟩] [⟨1, 0⟩, ⟨2, 0⟩] (by decide) (by decide) (by simp)
  have hb : init_hamiltonian_base_states 2 0 0 0 = [0, 1, 2, 3] := by decide
  have h1 : (init_hamiltonian_base_states 2 0 0 0)[1]? = some 1 := by rw [hb]; rfl
  have h2 : (init_hamiltonian_base_states 2 0 0 0)[2]? = some 2 := by rw [hb]; rfl
  have hj : 2 < (init_hamiltonian_base_states 2 0 0 0).length := by rw [hb]; decide
  exact ⟨_, e, C7_init_hamiltonian_off_diagonal
    sample_solver _ 2 0 0 0 [⟨0, 1⟩] [⟨1, 0⟩, ⟨2, 0⟩]
    (by norm_num) e 1 2 (by decide) hj 1 2 h1 h2⟩

/-- C8 (failing input): for `N = 1`, `s = 1`, `E_min = 0`, `E_max = 1` the only level of
the window is 0 and `collect_base_states` gives `[0, 1]` for it, but the basis list built
by `init_hamiltonian` is `[0, 1, 0, 1]`: the window is gathered `s' + 1 = 2` times. -/
theorem C8_base_states_window_gathered_twice :
    init_hamiltonian_base_states 1 1 0 1 = [0, 1, 0, 1] ∧
      window_base_states 1 1 0 1 = [0, 1] := by
  decide

/-- C9: for an `int` `N` and vectors of at most `2^63` entries, `init_hamiltonian`
throws if and only if `len(a) ≠ N - 1` or `len(w) ≠ N`, and when it throws the solver,
and with it the stored `H`, is what it was before the call. -/
theorem C9_init_hamiltonian_throws_iff {α τ : Type} [Zero α] [Add α] [Star α]
    (self : Solver α τ) (N s E_min E_max : Int) (a w : List α)
    (hN1 : -2 ^ 31 < N) (hN2 : N < 2 ^ 31) (ha : a.length < 2 ^ 63) (hw : w.length < 2 ^ 63) :
    ((∃ e self', self.init_hamiltonian N s E_min E_max a w = Outcome.thrown e self') ↔
        ((a.length : Int) ≠ N - 1 ∨ (w.length : Int) ≠ N)) ∧
      ∀ e self', self.init_hamiltonian N s E_min E_max a w = Outcome.thrown e self' →
        self' = self ∧ self'.H = self.H := by
  have k1 : a.length ≠ toSizeT (N - 1) ↔ (a.length : Int) ≠ N - 1 := by
    unfold toSizeT; omega
  have k2 : w.length ≠ toSizeT N ↔ (w.length : Int) ≠ N := by
    unfold toSizeT; omega
  by_cases hc : a.length ≠ toSizeT (N - 1) ∨ w.length ≠ toSizeT N
  · have e : self.init_hamiltonian N s E_min E_max a w =
        Outcome.thrown ⟨"incorrect parameters in hamiltonian initialization"⟩ self := by
      unfold Solver.init_hamiltonian
      rw [if_pos hc]
    refine ⟨⟨fun _ => by rw [← k1, ← k2]; exact hc, fun _ => ⟨_, _, e⟩⟩, ?_⟩
    intro e' self' h
    rw [e] at h
    cases h
    exact ⟨rfl, rfl⟩
  · have e : ∀ e' self',
        self.init_hamiltonian N s E_min E_max a w ≠ Outcome.thrown e' self' := by
      intro e' self' h
      unfold Solver.init_hamiltonian at h
      rw [if_neg hc] at h
      cases hf : init_hamiltonian_fill N a w (init_hamiltonian_base_states N s E_min E_max) with
      | none => rw [hf] at h; cases h
      | some H => rw [hf] at h; cases h
    refine ⟨⟨fun ⟨e', self', h⟩ => absurd h (e e' self'), fun h => ?_⟩, ?_⟩
    · rw [← k1, ← k2] at h
      exact absurd h hc
    · intro e' self' h
      exact absurd h (e e' self')

/-- C9 at `N = 2` with an empty `a` and `w = [1, 2]`: the call throws. -/
theorem C9_init_hamiltonian_throws_iff_witness :
    ((∃ e self', Solver.init_hamiltonian sample_solver 2 0 0 0 [] [⟨1, 0⟩, ⟨2, 0⟩]
          = Outcome.thrown e self') ↔
        ((([] : List GaussianInt).length : Int) ≠ 2 - 1 ∨
          (([⟨1, 0⟩, ⟨2, 0⟩] : List GaussianInt).length : Int) ≠ 2)) ∧
      ∀ e self', Solver.init_hamiltonian sample_solver 2 0 0 0 [] [⟨1, 0⟩, ⟨2, 0⟩]
          = Outcome.thrown e self' →
        self' = sample_solver ∧ self'.H = sample_solver.H :=
  C9_init_hamiltonian_throws_iff sample_solver 2 0 0 0 [] [⟨1, 0⟩, ⟨2, 0⟩]
    (by norm_num) (by norm_num) (by simp) (by simp)

/-! ## The propagation engine -/

/-- C10: when the propagator `U = exp(H, dT)` and `R0` are `n × n`, then for every
`1 ≤ j ≤ step_num` the loop of `solve` reaches its `j`-th iteration, after it `Rt` is
`U_c ^ j * R0 * U ^ j` with `U_c` the conjugate transpose of `U`, and the `j`-th line
written by `solve` is the list of the magnitudes of the diagonal of that matrix. -/
theorem C10_solve_iterates {α τ ρ : Type} [Semiring α] [Star α]
    (exp : Matrix α → τ → Matrix α) (abs : α → ρ) (self : Solver α τ) (n : Nat)
    (hU : (exp self.H self.dT).rows = n ∧ (exp self.H self.dT).cols = n)
    (hR : self.R0.rows = n ∧ self.R0.cols = n) (j : Nat) (hj1 : 1 ≤ j)
    (hj2 : (j : Int) ≤ self.step_num) :
    ∃ v vfin, solve_steps exp abs self j = Except.ok v ∧
      self.solve exp abs = Except.ok vfin ∧
      (v.Rt.rows = n ∧ v.Rt.cols = n) ∧
      v.Rt.toSq n = ((exp self.H self.dT).toSq n).conjTranspose ^ j * self.R0.toSq n *
        ((exp self.H self.dT).toSq n) ^ j ∧
      vfin.snapshots[j - 1]? = some (v.Rt.diagonal_abs abs) ∧
      v.Rt.diagonal_abs abs = List.ofFn fun i : Fin n =>
        abs ((((exp self.H self.dT).toSq n).conjTranspose ^ j * self.R0.toSq n *
          ((exp self.H self.dT).toSq n) ^ j) i i) := by
  obtain ⟨v, e, hd, hRt, _, _⟩ := solve_steps_spec exp abs self n hU hR j
  obtain ⟨vfin, efin, _, _, _, hsn⟩ := solve_steps_spec exp abs self n hU hR self.step_num.toNat
  have hdiag : v.Rt.diagonal_abs abs = List.ofFn fun i : Fin n =>
      abs ((((exp self.H self.dT).toSq n).conjTranspose ^ j * self.R0.toSq n *
        ((exp self.H self.dT).toSq n) ^ j) i i) := by
    rw [Matrix.diagonal_abs_eq_ofFn abs n v.Rt hd.1, hRt]
  refine ⟨v, vfin, e, efin, hd, hRt, ?_, hdiag⟩
  have hlt : j - 1 < self.step_num.toNat := by omega
  rw [hsn (j - 1) hlt, hdiag, Nat.sub_add_cancel hj1]

/-- C10 on the sample system, for the first of its two iterations. -/
theorem C10_solve_iterates_witness :
    ∃ v vfin, solve_steps sample_exp (fun x : ℚ => |x|) sample_system 1 = Except.ok v ∧
      sample_system.solve sample_exp (fun x : ℚ => |x|) = Except.ok vfin ∧
      (v.Rt.rows = 2 ∧ v.Rt.cols = 2) ∧
      v.Rt.toSq 2 =
        ((sample_exp sample_system.H sample_system.dT).toSq 2).conjTranspose ^ 1 *
          sample_system.R0.toSq 2 * ((sample_exp sample_system.H sample_system.dT).toSq 2) ^ 1 ∧
      vfin.snapshots[1 - 1]? = some (v.Rt.diagonal_abs fun x : ℚ => |x|) ∧
      (v.Rt.diagonal_abs fun x : ℚ => |x|) = List.ofFn fun i : Fin 2 =>
        |(((sample_exp sample_system.H sample_system.dT).toSq 2).conjTranspose ^ 1 *
          sample_system.R0.toSq 2 *
          ((sample_exp sample_system.H sample_system.dT).toSq 2) ^ 1) i i| :=
  C10_solve_iterates sample_exp (fun x : ℚ => |x|) sample_system 2 ⟨rfl, rfl⟩ ⟨rfl, rfl⟩ 1
    (le_refl 1) (by decide)

/-! ## The propagation engine: step count, rejected products, trace -/

/-- With a step count that is not positive the loop of `solve` is not entered. -/
theorem solve_of_step_num_nonpos {α τ ρ : Type} [AddCommMonoid α] [Mul α] [Star α]
    (exp : Matrix α → τ → Matrix α) (abs : α → ρ) (self : Solver α τ)
    (h : self.step_num ≤ 0) :
    self.solve exp abs = Except.ok { Rt := self.R0, snapshots := [] } := by
  have h0 : self.step_num.toNat = 0 := by omega
  simp [Solver.solve, solve_steps, h0]

theorem solve_body_error {α ρ : Type} [AddCommMonoid α] [Mul α] (abs : α → ρ)
    (U_c U : Matrix α) (v : SolveVars α ρ) (l : List Nat) :
    l.foldl (solve_body abs U_c U) (Except.error v) = Except.error v := by
  induction l with
  | nil => rfl
  | cons x xs ih => simpa [solve_body] using ih

/-- An iteration of the loop of `solve` whose `Rt` is not `n × n`, for an `n × n`
propagator, is left by a rejected product before its line is written. -/
theorem solve_body_mismatch {α ρ : Type} [AddCommMonoid α] [Mul α] (abs : α → ρ)
    (U_c U : Matrix α) (v : SolveVars α ρ) (i n : Nat) (hUc : U_c.cols = n)
    (hU : U.rows = n) (hR : v.Rt.rows ≠ n ∨ v.Rt.cols ≠ n) :
    ∃ v', solve_body abs U_c U (Except.ok v) i = Except.error v' ∧
      v'.snapshots = v.snapshots := by
  by_cases h1 : U_c.cols = v.Rt.rows
  · have h2 : ¬ v.Rt.cols = U.rows := by
      rcases hR with h | h
      · exact absurd (by rw [← h1, hUc]) h
      · rw [hU]; exact h
    refine ⟨{ v with Rt := { rows := U_c.rows, cols := v.Rt.cols,
                             elem := fun i j => Finset.sum (Finset.range U_c.cols) fun l =>
                               U_c.elem i l * v.Rt.elem l j } }, ?_, rfl⟩
    simp only [solve_body, Matrix.mul, if_pos h1, if_neg h2]
  · refine ⟨v, ?_, rfl⟩
    simp only [solve_body, Matrix.mul, if_neg h1]

/-- When the propagator is `n × n` and `R0` is not, the first iteration of `solve`
is left by a rejected product and no line has been written. -/
theorem solve_steps_mismatch {α τ ρ : Type} [AddCommMonoid α] [Mul α] [Star α]
    (exp : Matrix α → τ → Matrix α) (abs : α → ρ) (self : Solver α τ) (n : Nat)
    (hU : (exp self.H self.dT).rows = n ∧ (exp self.H self.dT).cols = n)
    (hR : self.R0.rows ≠ n ∨ self.R0.cols ≠ n) (k : Nat) (hk : 0 < k) :
    ∃ v, solve_steps exp abs self k = Except.error v ∧ v.snapshots = [] := by
  obtain ⟨m, rfl⟩ : ∃ m, k = m + 1 := ⟨k - 1, by omega⟩
  obtain ⟨v', e, hs⟩ := solve_body_mismatch abs (exp self.H self.dT).conj_transpose
    (exp self.H self.dT) { Rt := self.R0, snapshots := [] } 0 n hU.1 hU.1 hR
  refine ⟨v', ?_, hs⟩
  unfold solve_steps
  simp only [List.range_succ_eq_map, List.foldl_cons]
  rw [e]
  exact solve_body_error abs _ _ _ _

/-- C11: for a step count `k ≥ 0`, `solve` with `k = 0` writes no line and leaves `Rt`
equal to `R0`; and whenever the propagator and `R0` are `n × n`, `solve` returns and has
written exactly `k` lines. -/
theorem C11_solve_snapshot_count {α τ ρ : Type} [Semiring α] [Star α]
    (exp : Matrix α → τ → Matrix α) (abs : α → ρ) (self : Solver α τ)
    (hk : 0 ≤ self.step_num) :
    (self.step_num = 0 →
        self.solve exp abs = Except.ok { Rt := self.R0, snapshots := [] }) ∧
      ∀ n : Nat, (exp self.H self.dT).rows = n ∧ (exp self.H self.dT).cols = n →
        self.R0.rows = n ∧ self.R0.cols = n →
        ∃ vfin, self.solve exp abs = Except.ok vfin ∧
          (vfin.snapshots.length : Int) = self.step_num := by
  refine ⟨fun h0 => solve_of_step_num_nonpos exp abs self (by omega), fun n hU hR => ?_⟩
  obtain ⟨vfin, efin, _, _, hlen, _⟩ :=
    solve_steps_spec exp abs self n hU hR self.step_num.toNat
  exact ⟨vfin, efin, by omega⟩

/-- C11 on the sample system: two steps, two lines. -/
theorem C11_solve_snapshot_count_witness :
    (sample_system.step_num = 0 →
        sample_system.solve sample_exp (fun x : ℚ => |x|) =
          Except.ok { Rt := sample_system.R0, snapshots := [] }) ∧
      ∀ n : Nat, (sample_exp sample_system.H sample_system.dT).rows = n ∧
          (sample_exp sample_system.H sample_system.dT).cols = n →
        sample_system.R0.rows = n ∧ sample_system.R0.cols = n →
        ∃ vfin, sample_system.solve sample_exp (fun x : ℚ => |x|) = Except.ok vfin ∧
          (vfin.snapshots.length : Int) = sample_system.step_num :=
  C11_solve_snapshot_count sample_exp (fun x : ℚ => |x|) sample_system (by decide)

/-- C12 (counterexample): with `H` of dimension `2 × 2`, `R0` of dimension `1 × 1` and
`step_num = 0`, `solve` returns normally: no error is reported. -/
theorem C12_solve_mismatch_not_reported :
    ({ sample_system with R0 := Matrix.init 1 1, step_num := 0 } : Solver ℚ ℚ).H.rows ≠
        ({ sample_system with R0 := Matrix.init 1 1, step_num := 0 } : Solver ℚ ℚ).R0.rows ∧
      Solver.solve sample_exp (fun x : ℚ => |x|)
          ({ sample_system with R0 := Matrix.init 1 1, step_num := 0 } : Solver ℚ ℚ) =
        Except.ok { Rt := Matrix.init 1 1, snapshots := [] } :=
  ⟨by decide, solve_of_step_num_nonpos sample_exp (fun x : ℚ => |x|)
    ({ sample_system with R0 := Matrix.init 1 1, step_num := 0 } : Solver ℚ ℚ) (by decide)⟩

/-- C12 (amended): when the propagator is `n × n`, `R0` is not and `step_num` is at least
1, `solve` is left by a product that the matrix collaborator rejects in the first
iteration, and no line has been written: there is no partial sequence of snapshots. -/
theorem C12_solve_mismatch_no_snapshot {α τ ρ : Type} [AddCommMonoid α] [Mul α] [Star α]
    (exp : Matrix α → τ → Matrix α) (abs : α → ρ) (self : Solver α τ) (n : Nat)
    (hU : (exp self.H self.dT).rows = n ∧ (exp self.H self.dT).cols = n)
    (hR : self.R0.rows ≠ n ∨ self.R0.cols ≠ n) (hk : 1 ≤ self.step_num) :
    ∃ v, self.solve exp abs = Except.error v ∧ v.snapshots = [] :=
  solve_steps_mismatch exp abs self n hU hR self.step_num.toNat (by omega)

/-- C12 (amended) on the sample system with `R0` replaced by a `1 × 1` matrix. -/
theorem C12_solve_mismatch_no_snapshot_witness :
    ∃ v, Solver.solve sample_exp (fun x : ℚ => |x|)
        ({ sample_system with R0 := Matrix.init 1 1 } : Solver ℚ ℚ) = Except.error v ∧
      v.snapshots = [] :=
  C12_solve_mismatch_no_snapshot sample_exp (fun x : ℚ => |x|)
    ({ sample_system with R0 := Matrix.init 1 1 } : Solver ℚ ℚ) 2 ⟨rfl, rfl⟩
    (Or.inl (by decide)) (by decide)

theorem pow_mul_conjTranspose_pow {α : Type} [Semiring α] [Star α] (n : Nat)
    (U : SqMatrix n α) (h : U * U.conjTranspose = 1) (j : Nat) :
    U ^ j * U.conjTranspose ^ j = 1 := by
  induction j with
  | zero => simp
  | succ k ih =>
    rw [pow_succ, pow_succ', mul_assoc, ← mul_assoc U, h, one_mul, ih]

/-- C13: in exact arithmetic, when the propagator `U` is an `n × n` matrix with
`U * U_c = 1` and `R0` is `n × n` with trace 1, the matrix `Rt` has trace 1 after every
iteration of the loop of `solve`. -/
theorem C13_solve_trace {α τ ρ : Type} [CommSemiring α] [Star α]
    (exp : Matrix α → τ → Matrix α) (abs : α → ρ) (self : Solver α τ) (n : Nat)
    (hU : (exp self.H self.dT).rows = n ∧ (exp self.H self.dT).cols = n)
    (hR : self.R0.rows = n ∧ self.R0.cols = n)
    (hunit : (exp self.H self.dT).toSq n * ((exp self.H self.dT).toSq n).conjTranspose = 1)
    (htr : (self.R0.toSq n).trace = 1) (j : Nat) :
    ∃ v, solve_steps exp abs self j = Except.ok v ∧ (v.Rt.toSq n).trace = 1 := by
  obtain ⟨v, e, _, hRt, _, _⟩ := solve_steps_spec exp abs self n hU hR j
  refine ⟨v, e, ?_⟩
  rw [hRt, mul_assoc, Matrix.trace_mul_comm, mul_assoc,
    pow_mul_conjTranspose_pow n _ hunit j, mul_one, htr]

/-- C13 on the sample system, with its exchange matrix `H` taken as the propagator. -/
theorem C13_solve_trace_witness :
    ∃ v, solve_steps (fun (H : Matrix ℚ) (_ : ℚ) => H) (fun x : ℚ => |x|) sample_system 2
        = Except.ok v ∧ (v.Rt.toSq 2).trace = 1 :=
  have hunit : sample_system.H.toSq 2 * (sample_system.H.toSq 2).conjTranspose = 1 := by
    ext i j
    fin_cases i <;> fin_cases j <;>
      simp [Matrix.toSq, sample_system, Matrix.mul_apply, Fin.sum_univ_two]
  have htr : (sample_system.R0.toSq 2).trace = 1 := by
    rw [Matrix.trace, Fin.sum_univ_two]
    simp [Matrix.toSq, sample_system, Matrix.diag]
  C13_solve_trace (fun (H : Matrix ℚ) (_ : ℚ) => H) (fun x : ℚ => |x|) sample_system 2
    ⟨rfl, rfl⟩ ⟨rfl, rfl⟩ hunit htr 2

/-! ## The other entry points -/

/-- C14: `init_hamiltonian(matrix)` throws if and only if the matrix is not square, and
its message names the Hamiltonian; `init_density_matrix(matrix)` throws if and only if
the matrix is not square, and its message names the initial density matrix. -/
theorem C14_matrix_entry_points_throw_iff {α τ : Type} (self : Solver α τ) (m : Matrix α) :
    ((∃ e self', self.init_hamiltonian_matrix m = Outcome.thrown e self') ↔
        m.rows ≠ m.cols) ∧
      (∀ e self', self.init_hamiltonian_matrix m = Outcome.thrown e self' →
        e.errstr = "incorrect matrix dimensions in hamiltonian") ∧
      ((∃ e self', self.init_density_matrix m = Outcome.thrown e self') ↔
        m.rows ≠ m.cols) ∧
      (∀ e self', self.init_density_matrix m = Outcome.thrown e self' →
        e.errstr = "incorrect matrix dimensions in initital density matrix") := by
  by_cases h : m.rows = m.cols
  · have e1 : self.init_hamiltonian_matrix m = Outcome.done { self with H := m } := by
      simp [Solver.init_hamiltonian_matrix, Matrix.is_square, h]
    have e2 : self.init_density_matrix m = Outcome.done { self with R0 := m } := by
      simp [Solver.init_density_matrix, Matrix.is_square, h]
    rw [e1, e2]
    refine ⟨⟨?_, fun hx => absurd h hx⟩, ?_, ⟨?_, fun hx => absurd h hx⟩, ?_⟩
    · rintro ⟨_, _, hx⟩
      cases hx
    · intro _ _ hx
      cases hx
    · rintro ⟨_, _, hx⟩
      cases hx
    · intro _ _ hx
      cases hx
  · have e1 : self.init_hamiltonian_matrix m =
        Outcome.thrown ⟨"incorrect matrix dimensions in hamiltonian"⟩ { self with H := m } := by
      simp [Solver.init_hamiltonian_matrix, Matrix.is_square, h]
    have e2 : self.init_density_matrix m =
        Outcome.thrown ⟨"incorrect matrix dimensions in initital density matrix"⟩
          { self with R0 := m } := by
      simp [Solver.init_density_matrix, Matrix.is_square, h]
    rw [e1, e2]
    refine ⟨⟨fun _ => h, fun _ => ⟨_, _, rfl⟩⟩, ?_,
      ⟨fun _ => h, fun _ => ⟨_, _, rfl⟩⟩, ?_⟩
    · intro _ _ hx
      cases hx
      rfl
    · intro _ _ hx
      cases hx
      rfl

/-! ## The service functions again -/

/-- C15 (failing input): for the state `0b1` and `N = 1` the excitation level is 1, and
`unit_num` returns 0. -/
theorem C15_unit_num_one_site :
    unit_num 1 1 = 0 ∧ excitation_level 1 1 = 1 := by
  decide

/-- C16 (failing input): for `N = 1`, `s = 1`, `E_min = 0`, `E_max = 1` the basis list
built by `init_hamiltonian` is `[0, 1, 0, 1]`, in which the states 0 and 1 both occur
twice. -/
theorem C16_base_states_repeat :
    init_hamiltonian_base_states 1 1 0 1 = [0, 1, 0, 1] ∧
      ¬ (init_hamiltonian_base_states 1 1 0 1).Nodup := by
  decide

/-- C17: the value `r` returned by `simple_transition` is -1 or lies between 0 and
`N - 2`, so that for `len(a) = N - 1` the read `a[r]` of `hamiltonian_element`, which
happens only for `r ≠ -1`, is within the bounds of `a`. -/
theorem C17_simple_transition_range {α : Type} (state_1 state_2 N : Int) (a : List α)
    (ha : (a.length : Int) = N - 1) :
    (simple_transition state_1 state_2 N = -1 ∨
        (0 ≤ simple_transition state_1 state_2 N ∧
          simple_transition state_1 state_2 N ≤ N - 2)) ∧
      (simple_transition state_1 state_2 N = -1 ∨
        ∃ x, vec_at a (simple_transition state_1 state_2 N) = some x) := by
  have hr : simple_transition state_1 state_2 N = -1 ∨
      (0 ≤ simple_transition state_1 state_2 N ∧
        simple_transition state_1 state_2 N ≤ N - 2) :=
    Or.inl (simple_transition_eq_neg_one state_1 state_2 N)
  refine ⟨hr, ?_⟩
  rcases hr with h | ⟨h0, h1⟩
  · exact Or.inl h
  · right
    have hlt : (simple_transition state_1 state_2 N).toNat < a.length := by omega
    refine ⟨a[(simple_transition state_1 state_2 N).toNat], ?_⟩
    unfold vec_at
    rw [if_neg (by omega)]
    exact List.getElem?_eq_getElem hlt

/-- C17 for the states `0b01`, `0b10`, `N = 2` and one hop amplitude. -/
theorem C17_simple_transition_range_witness :
    (simple_transition 1 2 2 = -1 ∨
        (0 ≤ simple_transition 1 2 2 ∧ simple_transition 1 2 2 ≤ 2 - 2)) ∧
      (simple_transition 1 2 2 = -1 ∨
        ∃ x, vec_at [(⟨0, 1⟩ : GaussianInt)] (simple_transition 1 2 2) = some x) :=
  C17_simple_transition_range 1 2 2 [(⟨0, 1⟩ : GaussianInt)] (by decide)

/-! ## Hermiticity for real on-site energies -/

/-- C18: for `len(a) = N - 1`, `len(w) = N` and on-site energies that are their own
conjugates, `init_hamiltonian` returns and the matrix `H` it stores satisfies
`H[j][i] = conj(H[i][j])` for all indices `i`, `j`, whatever the hop amplitudes are. -/
theorem C18_hermitian_real_energies {α τ : Type} [AddMonoid α] [StarAddMonoid α]
    (self : Solver α τ) (N s E_min E_max : Int) (a w : List α) (hN : N < 2 ^ 31)
    (ha : (a.length : Int) = N - 1) (hw : (w.length : Int) = N)
    (hreal : ∀ x ∈ w, star x = x) :
    ∃ self', self.init_hamiltonian N s E_min E_max a w = Outcome.done self' ∧
      ∀ i j : Nat, i < (init_hamiltonian_base_states N s E_min E_max).length →
        j < (init_hamiltonian_base_states N s E_min E_max).length →
        self'.H.elem j i = star (self'.H.elem i j) := by
  have hN1 : 0 ≤ N - 1 := by omega
  obtain ⟨H, e, _, _, _, hg⟩ := init_hamiltonian_done self N s E_min E_max a w
    (by rw [toSizeT_of_nonneg _ hN1 (by omega)]; omega)
    (by rw [toSizeT_of_nonneg _ (by omega) hN]; omega)
    (fun _ hnil => by rw [hnil] at hw; simp at hw; omega)
  refine ⟨_, e, fun i j hi hj => ?_⟩
  show H.elem j i = star (H.elem i j)
  rcases Nat.lt_trichotomy i j with hlt | heq | hgt
  · exact (hg i j (Nat.le_of_lt hlt) hj).2 hlt
  · subst heq
    have hd := (hg i i (le_refl i) hi).1
    cases w with
    | nil =>
      simp at hw
      omega
    | cons w0 ws =>
      rw [hamiltonian_element_diagonal (i : Int) N a (w0 :: ws) _ _ w0
        (vec_at_of_lt _ i hi) (fun _ _ => by simp [vec_at])] at hd
      have hv := Option.some.inj hd
      have hw0 : star w0 = w0 := hreal w0 (List.mem_cons_self w0 ws)
      rw [hv]
      split
      · rw [star_add, star_zero, hw0]
      · rw [star_zero]
  · rw [(hg j i (Nat.le_of_lt hgt) hi).2 hgt, star_star]

/-- C18 at `N = 2`, `s = E_min = E_max = 0`, `a = [i]`, `w = [1, 2]`. -/
theorem C18_hermitian_real_energies_witness :
    ∃ self' : Solver GaussianInt ℚ,
      Solver.init_hamiltonian sample_solver 2 0 0 0 [⟨0, 1⟩] [⟨1, 0⟩, ⟨2, 0⟩]
        = Outcome.done self' ∧
      ∀ i j : Nat, i < (init_hamiltonian_base_states 2 0 0 0).length →
        j < (init_hamiltonian_base_states 2 0 0 0).length →
        self'.H.elem j i = star (self'.H.elem i j) :=
  C18_hermitian_real_energies sample_solver 2 0 0 0 [⟨0, 1⟩] [⟨1, 0⟩, ⟨2, 0⟩]
    (by norm_num) (by decide) (by decide) (by decide)

/-! ## The frame of `collect_base_states` and the binomial coefficient -/

/-- C19: for `0 ≤ N ≤ 30`, the range in which `pow(2,N)` is representable in an `int`,
`collect_base_states` keeps the previous contents of `base_states` as a prefix, and what
it appends is strictly increasing and made of values `v` with `0 ≤ v < 2^N`. -/
theorem C19_collect_base_states_frame (E_lvl N : Int) (base_states : List Int)
    (hN : 0 ≤ N) (hrep : N ≤ 30) :
    ∃ suffix, collect_base_states E_lvl N base_states = base_states ++ suffix ∧
      suffix.Pairwise (fun x y => x < y) ∧
      ∀ v ∈ suffix, 0 ≤ v ∧ v < 2 ^ N.toNat := by
  refine ⟨((List.range (pow_N N).toNat).map (fun i : Nat => (i : Int))).filter
      (fun i => decide (unit_num i N = E_lvl)), rfl, ?_, ?_⟩
  · apply List.Pairwise.filter
    rw [List.pairwise_map]
    exact List.Pairwise.imp (fun h => by exact_mod_cast h) (List.pairwise_lt_range _)
  · intro v hv
    rw [List.mem_filter, List.mem_map] at hv
    obtain ⟨⟨i, hi, rfl⟩, _⟩ := hv
    rw [List.mem_range] at hi
    have hp : pow_N N = 2 ^ N.toNat := by
      unfold pow_N
      rw [if_neg (by omega)]
    rw [hp] at hi
    refine ⟨Int.natCast_nonneg i, ?_⟩
    have h2 : ((2 : Int) ^ N.toNat).toNat = 2 ^ N.toNat := by
      have : ((2 : Int) ^ N.toNat) = ((2 ^ N.toNat : Nat) : Int) := by push_cast; rfl
      rw [this, Int.toNat_natCast]
    rw [h2] at hi
    exact_mod_cast hi

/-- C19 for level 0, `N = 2` and the previous contents `[7]`. -/
theorem C19_collect_base_states_frame_witness :
    ∃ suffix, collect_base_states 0 2 [7] = [7] ++ suffix ∧
      suffix.Pairwise (fun x y => x < y) ∧
      ∀ v ∈ suffix, 0 ≤ v ∧ v < 2 ^ (2 : Int).toNat :=
  C19_collect_base_states_frame 0 2 [7] (by decide) (by decide)

theorem combination_num_product_eq (k m : Nat) :
    (List.range m).foldl (fun (out : Int) (t : Nat) => out * ((k : Int) + 1 + (t : Int))) 1 =
      (((k + 1).ascFactorial m : Nat) : Int) := by
  induction m with
  | zero => simp
  | succ t ih =>
    rw [List.range_succ, List.foldl_append, ih]
    simp only [List.foldl_cons, List.foldl_nil, Nat.ascFactorial_succ]
    push_cast
    ring

theorem combination_num_quotient_succ (out : Int) (j : Nat) :
    combination_num_quotient out (j + 1) =
      Int.tdiv (combination_num_quotient out j) (1 + (j : Int)) := by
  unfold combination_num_quotient
  rw [List.range_succ, List.foldl_append]
  rfl

/-- The second loop of `combination_num` started from `m! * c`: after `j ≤ m` iterations
the value times `j!` is still `m! * c`. -/
theorem combination_num_quotient_inv (m : Nat) (c : Int) (j : Nat) (hj : j ≤ m) :
    combination_num_quotient ((m.factorial : Int) * c) j * (j.factorial : Int) =
      (m.factorial : Int) * c := by
  induction j with
  | zero => simp [combination_num_quotient]
  | succ t ih =>
    have ih' := ih (by omega)
    obtain ⟨q, hq⟩ := Nat.factorial_dvd_factorial hj
    have hq' : (m.factorial : Int) = ((t + 1 : Nat) : Int) * (t.factorial : Int) * (q : Int) := by
      rw [hq, Nat.factorial_succ]
      push_cast
      ring
    have hpos : (t.factorial : Int) ≠ 0 := by exact_mod_cast Nat.factorial_ne_zero t
    have hval : combination_num_quotient ((m.factorial : Int) * c) t =
        (1 + (t : Int)) * ((q : Int) * c) := by
      apply mul_right_cancel₀ hpos
      rw [ih', hq']
      push_cast
      ring
    rw [combination_num_quotient_succ, Nat.factorial_succ]
    push_cast
    have hdiv : Int.tdiv (combination_num_quotient ((m.factorial : Int) * c) t) (1 + (t : Int))
        * (1 + (t : Int)) = combination_num_quotient ((m.factorial : Int) * c) t :=
      Int.tdiv_mul_cancel ⟨(q : Int) * c, hval⟩
    calc Int.tdiv (combination_num_quotient ((m.factorial : Int) * c) t) (1 + (t : Int))
          * (((t : Int) + 1) * (t.factorial : Int))
        = (Int.tdiv (combination_num_quotient ((m.factorial : Int) * c) t) (1 + (t : Int))
          * (1 + (t : Int))) * (t.factorial : Int) := by ring
      _ = (m.factorial : Int) * c := by rw [hdiv, ih']

/-- C20: over unbounded integers, for `0 ≤ k ≤ n` the function `combination_num`
returns the binomial coefficient `C(n, k)`, and every division of its second loop is
exact: the quotient multiplied back by the divisor gives the dividend. -/
theorem C20_combination_num_choose (k n : Nat) (h : k ≤ n) :
    combination_num (k : Int) (n : Int) = ((n.choose k : Nat) : Int) ∧
      ∀ j : Nat, j < n - k →
        Int.tdiv (combination_num_quotient (combination_num_product (k : Int) (n : Int)) j)
            (1 + (j : Int)) * (1 + (j : Int)) =
          combination_num_quotient (combination_num_product (k : Int) (n : Int)) j := by
  have hm : ((n : Int) - (k : Int)).toNat = n - k := by omega
  have hprod : combination_num_product (k : Int) (n : Int) =
      (((n - k).factorial : Nat) : Int) * ((n.choose k : Nat) : Int) := by
    unfold combination_num_product
    rw [hm, combination_num_product_eq, Nat.ascFactorial_eq_factorial_mul_choose,
      Nat.add_sub_cancel' h, Nat.choose_symm h]
    push_cast
    rfl
  constructor
  · unfold combination_num
    rw [hm, hprod]
    have hinv := combination_num_quotient_inv (n - k) ((n.choose k : Nat) : Int) (n - k)
      (le_refl _)
    have hpos : (((n - k).factorial : Nat) : Int) ≠ 0 := by
      exact_mod_cast Nat.factorial_ne_zero (n - k)
    apply mul_right_cancel₀ hpos
    rw [hinv]
    ring
  · intro j hj
    rw [hprod]
    have h1 := combination_num_quotient_inv (n - k) ((n.choose k : Nat) : Int) (j + 1)
      (by omega)
    have h0 := combination_num_quotient_inv (n - k) ((n.choose k : Nat) : Int) j (by omega)
    have hpos : ((j.factorial : Nat) : Int) ≠ 0 := by exact_mod_cast Nat.factorial_ne_zero j
    rw [combination_num_quotient_succ, Nat.factorial_succ] at h1
    push_cast at h1
    have h2 := h1.trans h0.symm
    apply mul_right_cancel₀ hpos
    linear_combination h2

/-- C20 for `k = 2`, `n = 5`: the result is `C(5, 2) = 10`. -/
theorem C20_combination_num_choose_witness :
    combination_num ((2 : Nat) : Int) ((5 : Nat) : Int) = (((5 : Nat).choose 2 : Nat) : Int) ∧
      ∀ j : Nat, j < 5 - 2 →
        Int.tdiv
            (combination_num_quotient
              (combination_num_product ((2 : Nat) : Int) ((5 : Nat) : Int)) j)
            (1 + (j : Int)) * (1 + (j : Int)) =
          combination_num_quotient
            (combination_num_product ((2 : Nat) : Int) ((5 : Nat) : Int)) j :=
  C20_combination_num_choose 2 5 (by decide)

end Prac
